import Mathlib

/-!
Verification of the batch-scheduling core of `src/src/cuda/cudapolisher.cpp`
(`racon::CUDAPolisher`).

The scheduler hands out contiguous slices of an ordered work collection
(overlaps, consensus windows) to fixed-capacity accelerator batches through a
mutex-protected cursor, aggregates per-item boolean results, retries failed
windows on a host thread pool, and assembles the polished output in one linear
pass.  All fill operations are serialised by the cursor mutex, so a whole
multi-Runner run linearises to a sequence of fill calls; the definitions below
embed the loops of the source with that linearisation made explicit.
-/

namespace Racon

/-- One batch's accept behaviour: `accept load idx` models
`batch->addWindow(windows_.at(idx))` (cudapolisher.cpp:219) or
`batch->addOverlap(overlaps.at(idx).get(), sequences_)` (cudapolisher.cpp:90)
returning whether the item fit, where `load` is the number of items already in
the batch since the last `reset()`.  A fixed capacity `cap ≥ 1` is the
instance `fun load _ => decide (load < cap)`. -/
abbrev Accept := Nat → Nat → Bool

/-- The loop
`while (next_window_index < count) { if (batch->addWindow(...)) next_window_index++; else break; }`
of `fill_next_batch` (cudapolisher.cpp:217-227, and the identical overlap
version at cudapolisher.cpp:88-98), threading the batch contents `b` (the item
indices inserted since `reset`).  `fuel` bounds the number of iterations; the
C++ loop terminates because the cursor strictly increases towards `count`, so
any `fuel ≥ count - idx` reproduces it exactly (the callers below pass
`count`). -/
def fillLoop (accept : Accept) (count : Nat) : Nat → Nat → List Nat → Nat × List Nat
  | 0, idx, b => (idx, b)
  | fuel + 1, idx, b =>
    if idx < count then
      if accept b.length idx then
        fillLoop accept count fuel (idx + 1) (b ++ [idx])
      else (idx, b)
    else (idx, b)

/-- `batch->reset()` (cudapolisher.cpp:205, 81): clears the batch's prior
assignment. -/
def reset (_ : List Nat) : List Nat := []

/-- `fill_next_batch` of `CUDAPolisher::polish` (cudapolisher.cpp:204-238):
resets the batch, then, inside the cursor's critical section, inserts
successive items until refusal or exhaustion.  Returns the final batch
contents together with the pair `(initial_count, next_window_index)`; the
second component of the pair is also the new shared cursor.  (The progress-bar
update at cudapolisher.cpp:229-234 touches no scheduling state and is
omitted.) -/
def fill_next_batch (prev : List Nat) (accept : Accept) (count c : Nat) :
    List Nat × (Nat × Nat) :=
  let r := fillLoop accept count count c (reset prev)
  (r.2, (c, r.1))

/-- The cursor position after one fill starting at cursor `c`. -/
def fillEnd (accept : Accept) (count c : Nat) : Nat :=
  (fillLoop accept count count c []).1

/-- The ranges handed out by successive `fill_next_batch` calls, in
lock-acquisition order: the mutex serialises all fills of all Runners, so any
concurrent run linearises to such a list, one accept function per fill call. -/
def runRanges (count : Nat) : List Accept → Nat → List (Nat × Nat)
  | [], _ => []
  | a :: as, c => (c, fillEnd a count c) :: runRanges count as (fillEnd a count c)

/-- The shared cursor after a sequence of fills. -/
def runFinal (count : Nat) : List Accept → Nat → Nat
  | [], c => c
  | a :: as, c => runFinal count as (fillEnd a count c)

theorem fillLoop_fst_le (accept : Accept) (count : Nat) :
    ∀ fuel idx b, idx ≤ (fillLoop accept count fuel idx b).1 := by
  intro fuel
  induction fuel with
  | zero => intro idx b; simp [fillLoop]
  | succ n ih =>
    intro idx b
    simp only [fillLoop]
    by_cases h1 : idx < count
    · by_cases h2 : accept b.length idx = true
      · simp only [h1, h2, if_true]
        exact Nat.le_trans (Nat.le_succ idx) (ih (idx + 1) (b ++ [idx]))
      · simp [h1, h2]
    · simp [h1]

theorem fillLoop_fst_le_count (accept : Accept) (count : Nat) :
    ∀ fuel idx b, idx ≤ count → (fillLoop accept count fuel idx b).1 ≤ count := by
  intro fuel
  induction fuel with
  | zero => intro idx b h; simpa [fillLoop] using h
  | succ n ih =>
    intro idx b h
    simp only [fillLoop]
    by_cases h1 : idx < count
    · by_cases h2 : accept b.length idx = true
      · simp only [h1, h2, if_true]
        exact ih (idx + 1) (b ++ [idx]) h1
      · simpa [h1, h2] using h
    · simpa [h1] using h

theorem fillLoop_progress (accept : Accept) (count : Nat)
    (hcap : ∀ i, accept 0 i = true) :
    ∀ fuel idx, idx < count → 1 ≤ fuel →
      idx < (fillLoop accept count fuel idx []).1 := by
  intro fuel idx hidx hfuel
  match fuel, hfuel with
  | n + 1, _ =>
    simp only [fillLoop, List.length_nil, hidx, if_true, hcap idx]
    exact Nat.lt_of_lt_of_le (Nat.lt_succ_self idx)
      (fillLoop_fst_le accept count n (idx + 1) ([] ++ [idx]))

theorem fillLoop_exhausted (accept : Accept) (count : Nat) :
    ∀ fuel idx b, count ≤ idx → fillLoop accept count fuel idx b = (idx, b) := by
  intro fuel idx b h
  match fuel with
  | 0 => rfl
  | n + 1 => simp [fillLoop, Nat.not_lt_of_le h]

theorem fillLoop_snd (accept : Accept) (count : Nat) :
    ∀ fuel idx b, (fillLoop accept count fuel idx b).2
      = b ++ List.range' idx ((fillLoop accept count fuel idx b).1 - idx) := by
  intro fuel
  induction fuel with
  | zero => intro idx b; simp [fillLoop]
  | succ n ih =>
    intro idx b
    simp only [fillLoop]
    by_cases h1 : idx < count
    · by_cases h2 : accept b.length idx = true
      · simp only [h1, h2, if_true]
        have hle := fillLoop_fst_le accept count n (idx + 1) (b ++ [idx])
        rw [ih (idx + 1) (b ++ [idx])]
        have hk : (fillLoop accept count n (idx + 1) (b ++ [idx])).1 - idx
            = ((fillLoop accept count n (idx + 1) (b ++ [idx])).1 - (idx + 1)) + 1 := by
          omega
        rw [hk, List.range'_succ, List.append_assoc]
        rfl
      · simp [h1, h2]
    · simp [h1]

/-- Stopping reason of the fill loop: either the collection is exhausted or the
batch refused the next item. -/
theorem fillLoop_stop (accept : Accept) (count : Nat) :
    ∀ fuel idx b, idx ≤ count → count - idx ≤ fuel →
      (fillLoop accept count fuel idx b).1 = count ∨
      accept (fillLoop accept count fuel idx b).2.length
        (fillLoop accept count fuel idx b).1 = false := by
  intro fuel
  induction fuel with
  | zero =>
    intro idx b h1 h2
    left
    have : idx = count := by omega
    simp [fillLoop, this]
  | succ n ih =>
    intro idx b h1 h2
    simp only [fillLoop]
    by_cases hlt : idx < count
    · by_cases h2' : accept b.length idx = true
      · simp only [hlt, h2', if_true]
        exact ih (idx + 1) (b ++ [idx]) hlt (by omega)
      · right
        simp [hlt, h2', eq_false_of_ne_true h2']
    · left
      simp only [hlt, if_false]
      omega

theorem le_fillEnd (accept : Accept) (count c : Nat) : c ≤ fillEnd accept count c :=
  fillLoop_fst_le accept count count c []

theorem fillEnd_le_count (accept : Accept) (count c : Nat) (h : c ≤ count) :
    fillEnd accept count c ≤ count :=
  fillLoop_fst_le_count accept count count c [] h

theorem fillEnd_progress (accept : Accept) (count c : Nat)
    (hcap : ∀ i, accept 0 i = true) (h : c < count) : c < fillEnd accept count c :=
  fillLoop_progress accept count hcap count c h (by omega)

theorem le_runFinal (count : Nat) :
    ∀ accepts c, c ≤ runFinal count accepts c := by
  intro accepts
  induction accepts with
  | nil => intro c; simp [runFinal]
  | cons a as ih =>
    intro c
    exact Nat.le_trans (le_fillEnd a count c) (ih (fillEnd a count c))

theorem runFinal_le_count (count : Nat) :
    ∀ accepts c, c ≤ count → runFinal count accepts c ≤ count := by
  intro accepts
  induction accepts with
  | nil => intro c h; simpa [runFinal] using h
  | cons a as ih =>
    intro c h
    exact ih (fillEnd a count c) (fillEnd_le_count a count c h)

/-- Each index is contained in exactly one range of a fill sequence: the count
of ranges containing `k` is `1` precisely on the interval the cursor travelled
over, `0` elsewhere. -/
theorem runRanges_countP (count : Nat) :
    ∀ accepts c k, c ≤ count →
      (runRanges count accepts c).countP (fun r => decide (r.1 ≤ k ∧ k < r.2))
        = if c ≤ k ∧ k < runFinal count accepts c then 1 else 0 := by
  intro accepts
  induction accepts with
  | nil =>
    intro c k _
    simp only [runRanges, runFinal, List.countP_nil]
    rw [if_neg (by omega)]
  | cons a as ih =>
    intro c k hc
    have he1 : c ≤ fillEnd a count c := le_fillEnd a count c
    have he2 : fillEnd a count c ≤ count := fillEnd_le_count a count c hc
    have hf1 : fillEnd a count c ≤ runFinal count as (fillEnd a count c) :=
      le_runFinal count as (fillEnd a count c)
    simp only [runRanges, runFinal, List.countP_cons, ih (fillEnd a count c) k he2,
      decide_eq_true_eq]
    split_ifs <;> omega

/-- A complete run: every Runner exits only after a fill that handed it an
empty batch, so the chronologically last fill of the run returns an empty
range; with every batch able to accept at least one item, that forces the
cursor to have reached `count`. -/
theorem runFinal_eq_count (count : Nat) :
    ∀ accepts c, c ≤ count → (∀ a ∈ accepts, ∀ i, a 0 i = true) →
      (∃ r, (runRanges count accepts c).getLast? = some r ∧ r.1 = r.2) →
      runFinal count accepts c = count := by
  intro accepts
  induction accepts with
  | nil =>
    intro c _ _ hlast
    obtain ⟨r, hr, _⟩ := hlast
    simp [runRanges] at hr
  | cons a as ih =>
    intro c hc hcap hlast
    match as with
    | [] =>
      obtain ⟨r, hr, hempty⟩ := hlast
      simp only [runRanges, List.getLast?_singleton, Option.some_inj] at hr
      subst hr
      simp only at hempty
      have : ¬ c < count := by
        intro hlt
        have := fillEnd_progress a count c (hcap a (by simp)) hlt
        omega
      have hceq : c = count := by omega
      simp only [runFinal]
      rw [← hempty, hceq]
    | a' :: as' =>
      have hstep : runRanges count (a :: a' :: as') c
          = (c, fillEnd a count c) :: runRanges count (a' :: as') (fillEnd a count c) := rfl
      have hstep2 : runRanges count (a' :: as') (fillEnd a count c)
          = (fillEnd a count c, fillEnd a' count (fillEnd a count c))
            :: runRanges count as' (fillEnd a' count (fillEnd a count c)) := rfl
      have htail : ∃ r, (runRanges count (a' :: as') (fillEnd a count c)).getLast? = some r
          ∧ r.1 = r.2 := by
        obtain ⟨r, hr, hempty⟩ := hlast
        refine ⟨r, ?_, hempty⟩
        rw [hstep, hstep2] at hr
        rw [hstep2]
        rwa [List.getLast?_cons_cons] at hr
      exact ih (fillEnd a count c) (fillEnd_le_count a count c hc)
        (fun b hb i => hcap b (List.mem_cons_of_mem a hb) i) htail

theorem runRanges_mem_le (count : Nat) :
    ∀ accepts c, ∀ r ∈ runRanges count accepts c, r.1 ≤ r.2 := by
  intro accepts
  induction accepts with
  | nil => intro c r hr; simp [runRanges] at hr
  | cons a as ih =>
    intro c r hr
    simp only [runRanges, List.mem_cons] at hr
    rcases hr with rfl | hr
    · exact le_fillEnd a count c
    · exact ih _ r hr

theorem runRanges_chain (count : Nat) :
    ∀ accepts c i, i + 1 < (runRanges count accepts c).length →
      ((runRanges count accepts c).getD i (0, 0)).2
        = ((runRanges count accepts c).getD (i + 1) (0, 0)).1 := by
  intro accepts
  induction accepts with
  | nil => intro c i h; simp [runRanges] at h
  | cons a as ih =>
    intro c i h
    match i with
    | 0 =>
      match as with
      | [] => simp [runRanges] at h
      | a' :: as' => rfl
    | i + 1 =>
      have hstep : runRanges count (a :: as) c
          = (c, fillEnd a count c) :: runRanges count as (fillEnd a count c) := rfl
      rw [hstep, List.getD_cons_succ, List.getD_cons_succ]
      apply ih (fillEnd a count c) i
      rw [hstep] at h
      simpa using h

/-- C1: for a run over `N` work items, with any batch capacity of at least 1
(`hcap`: an empty batch always accepts) and any number of concurrent Runners
of at least 1 (the fills linearise through the cursor mutex into `accepts`,
and a complete run's chronologically last fill returned an empty range,
`hlast`), every index below `N` lies in exactly one range handed out by
`fill_next_batch`, and no index at or above `N` lies in any: the ranges
partition `[0, N)` with no gaps and no duplicates. -/
theorem fill_run_covers_exactly_once (N : Nat) (accepts : List Accept)
    (hcap : ∀ a ∈ accepts, ∀ i, a 0 i = true)
    (hlast : ∃ r, (runRanges N accepts 0).getLast? = some r ∧ r.1 = r.2) :
    ∀ k : Nat, (runRanges N accepts 0).countP (fun r => decide (r.1 ≤ k ∧ k < r.2))
      = if k < N then 1 else 0 := by
  have hfin := runFinal_eq_count N accepts 0 (Nat.zero_le N) hcap hlast
  intro k
  rw [runRanges_countP N accepts 0 k (Nat.zero_le N), hfin]
  simp [Nat.zero_le]

theorem fill_run_covers_exactly_once_witness :
    (runRanges 2 [fun load _ => decide (load < 1), fun load _ => decide (load < 1),
        fun load _ => decide (load < 1)] 0).countP
      (fun r => decide (r.1 ≤ 1 ∧ 1 < r.2)) = 1 := by
  have h := fill_run_covers_exactly_once 2
    [fun load _ => decide (load < 1), fun load _ => decide (load < 1),
     fun load _ => decide (load < 1)]
    (by intro a ha i; simp only [List.mem_cons, List.not_mem_nil, or_false] at ha
        rcases ha with rfl | rfl | rfl <;> rfl)
    ⟨(2, 2), by decide, rfl⟩ 1
  simpa using h

/-- C7: the assignment of items to batches is ordered by original index:
each returned range starts exactly where the previously returned range ended,
the first range starts at index 0, and the cursor never moves backwards. -/
theorem ranges_consecutive_monotone (N : Nat) (accepts : List Accept) :
    (∀ i, i + 1 < (runRanges N accepts 0).length →
      ((runRanges N accepts 0).getD i (0, 0)).2
        = ((runRanges N accepts 0).getD (i + 1) (0, 0)).1) ∧
    (∀ r ∈ runRanges N accepts 0, r.1 ≤ r.2) ∧
    (accepts ≠ [] → ((runRanges N accepts 0).headD (0, 0)).1 = 0) := by
  refine ⟨fun i h => runRanges_chain N accepts 0 i h,
    fun r hr => runRanges_mem_le N accepts 0 r hr, fun h => ?_⟩
  match accepts with
  | a :: as => rfl

theorem ranges_consecutive_monotone_witness :
    ((runRanges 3 [fun load _ => decide (load < 2), fun load _ => decide (load < 2)]
        0).getD 0 (0, 0)).2
      = ((runRanges 3 [fun load _ => decide (load < 2), fun load _ => decide (load < 2)]
        0).getD 1 (0, 0)).1 :=
  (ranges_consecutive_monotone 3
    [fun load _ => decide (load < 2), fun load _ => decide (load < 2)]).1 0 (by decide)

/-- C4: `fill_next_batch` resets the batch, fills it with the successive
unassigned indices, moves the cursor forward by exactly the number of items
inserted, returns the half-open range `[start, end)` it assigned, stops only
on exhaustion or refusal, and on an already exhausted collection returns an
empty range with the batch left empty.  The result never depends on the
batch's previous contents (`reset` comes first). -/
theorem fill_next_batch_spec (prev : List Nat) (accept : Accept) (count c : Nat)
    (hc : c ≤ count) :
    (fill_next_batch prev accept count c).2.1 = c ∧
    (fill_next_batch prev accept count c).2.2
      = c + (fill_next_batch prev accept count c).1.length ∧
    (fill_next_batch prev accept count c).1
      = List.range' c (fill_next_batch prev accept count c).1.length ∧
    fill_next_batch prev accept count c = fill_next_batch [] accept count c ∧
    ((fill_next_batch prev accept count c).2.2 = count ∨
      accept (fill_next_batch prev accept count c).1.length
        (fill_next_batch prev accept count c).2.2 = false) ∧
    (count ≤ c → (fill_next_batch prev accept count c).1 = []
      ∧ (fill_next_batch prev accept count c).2.2 = c) := by
  have hle := fillLoop_fst_le accept count count c []
  have hsnd := fillLoop_snd accept count count c []
  simp only [List.nil_append] at hsnd
  have h1 : (fill_next_batch prev accept count c).1 = (fillLoop accept count count c []).2 := rfl
  have h2 : (fill_next_batch prev accept count c).2.2 = (fillLoop accept count count c []).1 := rfl
  refine ⟨rfl, ?_, ?_, rfl, ?_, ?_⟩
  · rw [h1, h2, hsnd, List.length_range']
    omega
  · rw [h1, hsnd, List.length_range']
  · rw [h1, h2]
    exact fillLoop_stop accept count count c [] hc (by omega)
  · intro h
    have hx : fillLoop accept count count c [] = (c, []) :=
      fillLoop_exhausted accept count count c [] h
    rw [h1, h2, hx]
    exact ⟨rfl, rfl⟩

theorem fill_next_batch_spec_witness :
    (fill_next_batch [7] (fun load _ => decide (load < 2)) 3 1).2.2
      = 1 + (fill_next_batch [7] (fun load _ => decide (load < 2)) 3 1).1.length :=
  (fill_next_batch_spec [7] (fun load _ => decide (load < 2)) 3 1 (by decide)).2.1

/-- The items executed by the batched accelerator run: after each fill,
`process_batch` executes the batch exactly when it is non-empty
(`hasOverlaps`, cudapolisher.cpp:114-123; `hasWindows`,
cudapolisher.cpp:245-268), and after a fill the batch holds exactly the items
of the fill's range.  Flattening the per-fill contents gives the multiset of
items handed to `alignAll`/`generateConsensus` over the whole run (an empty
fill contributes nothing, matching the skipped execute on an empty batch). -/
def alignedItems (count : Nat) (accepts : List Accept) (c : Nat) : List Nat :=
  ((runRanges count accepts c).map (fun r => List.range' r.1 (r.2 - r.1))).flatten

theorem alignedItems_count (count : Nat) :
    ∀ accepts c j, c ≤ count →
      (alignedItems count accepts c).count j
        = if c ≤ j ∧ j < runFinal count accepts c then 1 else 0 := by
  intro accepts
  induction accepts with
  | nil =>
    intro c j _
    simp only [alignedItems, runRanges, runFinal, List.map_nil, List.flatten_nil,
      List.count_nil]
    rw [if_neg (by omega)]
  | cons a as ih =>
    intro c j hc
    have he1 := le_fillEnd a count c
    have he2 := fillEnd_le_count a count c hc
    have hf1 := le_runFinal count as (fillEnd a count c)
    have hsplit : alignedItems count (a :: as) c
        = List.range' c (fillEnd a count c - c) ++ alignedItems count as (fillEnd a count c) := by
      simp [alignedItems, runRanges]
    rw [hsplit, List.count_append, ih (fillEnd a count c) j he2]
    have hr : (List.range' c (fillEnd a count c - c)).count j
        = if c ≤ j ∧ j < fillEnd a count c then 1 else 0 := by
      by_cases hj : c ≤ j ∧ j < fillEnd a count c
      · rw [if_pos hj]
        exact List.count_eq_one_of_mem (List.nodup_range' c _)
          (List.mem_range'_1.mpr (by omega))
      · rw [if_neg hj]
        refine List.count_eq_zero_of_not_mem (fun hmem => ?_)
        rw [List.mem_range'_1] at hmem
        omega
    rw [hr]
    have hrf : runFinal count (a :: as) c = runFinal count as (fillEnd a count c) := rfl
    rw [hrf]
    by_cases hj1 : c ≤ j ∧ j < fillEnd a count c
    · rw [if_pos hj1, if_neg (by omega), if_pos (by omega)]
    · rw [if_neg hj1]
      by_cases hj2 : fillEnd a count c ≤ j ∧ j < runFinal count as (fillEnd a count c)
      · rw [if_pos hj2, if_pos (by omega)]
      · rw [if_neg hj2, if_neg (by omega)]

/-- C6: every work item of a phase — every overlap handed to the batched
aligner run of `find_overlap_breaking_points`, and identically every window
handed to the batched consensus run of `polish` — is executed in exactly one
accelerator batch across the whole run, and no item is silently dropped:
item `j` occurs exactly once among the executed batch contents when `j < N`,
and never otherwise. -/
theorem items_processed_exactly_once (N : Nat) (accepts : List Accept)
    (hcap : ∀ a ∈ accepts, ∀ i, a 0 i = true)
    (hlast : ∃ r, (runRanges N accepts 0).getLast? = some r ∧ r.1 = r.2) :
    ∀ j : Nat, (alignedItems N accepts 0).count j = if j < N then 1 else 0 := by
  have hfin := runFinal_eq_count N accepts 0 (Nat.zero_le N) hcap hlast
  intro j
  rw [alignedItems_count N accepts 0 j (Nat.zero_le N), hfin]
  simp [Nat.zero_le]

theorem items_processed_exactly_once_witness :
    (alignedItems 3 [fun load _ => decide (load < 2), fun load _ => decide (load < 2),
        fun load _ => decide (load < 2)] 0).count 2 = 1 := by
  have h := items_processed_exactly_once 3
    [fun load _ => decide (load < 2), fun load _ => decide (load < 2),
     fun load _ => decide (load < 2)]
    (by intro a ha i; simp only [List.mem_cons, List.not_mem_nil, or_false] at ha
        rcases ha with rfl | rfl | rfl <;> rfl)
    ⟨(3, 3), by decide, rfl⟩ 2
  simpa using h

/-- `process_batch` of `CUDAPolisher::polish` (cudapolisher.cpp:240-270), one
Runner's loop: fill, then, if the batch is non-empty (`batch->hasWindows()`,
equivalent to a non-empty range because the fill starts from `reset`), run
`generateConsensus` — modelled by `exec s e`, the results vector returned for
the batch holding windows `[s, e)` — check the result count against the
range, and copy `results[i]` into slot `range.first + i` of
`window_consensus_status_`.  The function returns the list of writes the
Runner performs, in order, and the `std::runtime_error` thrown on a count
mismatch (which ends the loop before any write of the offending batch).
`fuel` bounds the iteration count; each non-final iteration strictly advances
the cursor, so any `fuel > count - c` reproduces the C++ loop exactly. -/
def process_batch (accept : Accept) (exec : Nat → Nat → List Bool) (count : Nat) :
    Nat → Nat → List (Nat × Bool) × Option String
  | 0, _ => ([], none)
  | fuel + 1, c =>
    if c < fillEnd accept count c then
      if (exec c (fillEnd accept count c)).length = fillEnd accept count c - c then
        ((List.range (fillEnd accept count c - c)).map
            (fun i => (c + i, (exec c (fillEnd accept count c)).getD i false))
          ++ (process_batch accept exec count fuel (fillEnd accept count c)).1,
         (process_batch accept exec count fuel (fillEnd accept count c)).2)
      else ([], some "Windows processed doesn't match range of windows passed to batch")
    else ([], none)

/-- Application of a sequence of `status[i] = v` writes to the status
vector. -/
def applyWrites (st : List Bool) (ws : List (Nat × Bool)) : List Bool :=
  ws.foldl (fun s w => s.set w.1 w.2) st

theorem getD_set_self : ∀ (l : List Bool) (i : Nat) (v : Bool), i < l.length →
    (l.set i v).getD i false = v := by
  intro l
  induction l with
  | nil => intro i v h; simp at h
  | cons x xs ih =>
    intro i v h
    match i with
    | 0 => rfl
    | i + 1 =>
      simp only [List.set_cons_succ, List.getD_cons_succ]
      exact ih i v (by simpa using h)

theorem getD_set_ne : ∀ (l : List Bool) (i j : Nat) (v : Bool), i ≠ j →
    (l.set i v).getD j false = l.getD j false := by
  intro l
  induction l with
  | nil => intro i j v _; simp [List.set_nil]
  | cons x xs ih =>
    intro i j v h
    match i, j with
    | 0, 0 => exact absurd rfl h
    | 0, j + 1 => rfl
    | i + 1, 0 => rfl
    | i + 1, j + 1 =>
      simp only [List.set_cons_succ, List.getD_cons_succ]
      exact ih i j v (by omega)

theorem applyWrites_length : ∀ (ws : List (Nat × Bool)) (st : List Bool),
    (applyWrites st ws).length = st.length := by
  intro ws
  induction ws with
  | nil => intro st; rfl
  | cons w ws ih =>
    intro st
    have : applyWrites st (w :: ws) = applyWrites (st.set w.1 w.2) ws := rfl
    rw [this, ih, List.length_set]

/-- Applying the writes of one contiguous batch block overwrites exactly the
block's indices with the batch results. -/
theorem applyWrites_range' (res : Nat → Bool) :
    ∀ (k c : Nat) (st : List Bool) (j : Nat), c + k ≤ st.length →
      (applyWrites st ((List.range' c k).map (fun i => (i, res i)))).getD j false
        = if c ≤ j ∧ j < c + k then res j else st.getD j false := by
  intro k
  induction k with
  | zero =>
    intro c st j _
    rw [if_neg (by omega)]
    rfl
  | succ k ih =>
    intro c st j h
    rw [List.range'_succ]
    simp only [List.map_cons]
    have hfold : applyWrites st ((c, res c) :: (List.range' (c + 1) k).map (fun i => (i, res i)))
        = applyWrites (st.set c (res c)) ((List.range' (c + 1) k).map (fun i => (i, res i))) := rfl
    rw [hfold, ih (c + 1) (st.set c (res c)) j (by rw [List.length_set]; omega)]
    by_cases h1 : c + 1 ≤ j ∧ j < c + 1 + k
    · rw [if_pos h1, if_pos (by omega)]
    · rw [if_neg h1]
      by_cases h2 : c = j
      · subst h2
        rw [getD_set_self st c (res c) (by omega), if_pos (by omega)]
      · rw [getD_set_ne st c j (res c) h2, if_neg (by omega)]

theorem getD_map_range' (res : Nat → Bool) :
    ∀ (k s i : Nat), i < k → ((List.range' s k).map res).getD i false = res (s + i) := by
  intro k
  induction k with
  | zero => intro s i h; omega
  | succ k ih =>
    intro s i h
    rw [List.range'_succ]
    simp only [List.map_cons]
    match i with
    | 0 => rfl
    | i + 1 =>
      rw [List.getD_cons_succ, ih (s + 1) i (by omega)]
      congr 1
      omega

theorem map_pair_range' (res : Nat → Bool) (c k : Nat) :
    (List.range k).map (fun i => (c + i, ((List.range' c k).map res).getD i false))
      = (List.range' c k).map (fun j => (j, res j)) := by
  conv_rhs => rw [List.range'_eq_map_range, List.map_map]
  apply List.map_congr_left
  intro i hi
  rw [List.mem_range] at hi
  simp only [Function.comp]
  rw [getD_map_range' res k c i hi]

/-- With every batch result vector sized to its range (`hres` also fixes the
per-window results `res`), a Runner with capacity at least 1 processes the
whole remaining collection and writes each index of `[c, count)` exactly
once, in order, with no error. -/
theorem process_batch_complete (accept : Accept) (exec : Nat → Nat → List Bool)
    (res : Nat → Bool) (count : Nat)
    (hcap : ∀ i, accept 0 i = true)
    (hres : ∀ s e, s ≤ e → exec s e = (List.range' s (e - s)).map res) :
    ∀ fuel c, c ≤ count → count - c < fuel →
      process_batch accept exec count fuel c
        = ((List.range' c (count - c)).map (fun j => (j, res j)), none) := by
  intro fuel
  induction fuel with
  | zero => intro c h1 h2; omega
  | succ n ih =>
    intro c h1 h2
    by_cases hce : c < count
    · have he1 : c < fillEnd accept count c := fillEnd_progress accept count c hcap hce
      have he2 : fillEnd accept count c ≤ count := fillEnd_le_count accept count c h1
      have hx : exec c (fillEnd accept count c)
          = (List.range' c (fillEnd accept count c - c)).map res :=
        hres c (fillEnd accept count c) (Nat.le_of_lt he1)
      have hlen : (exec c (fillEnd accept count c)).length = fillEnd accept count c - c := by
        rw [hx, List.length_map, List.length_range']
      have hrec := ih (fillEnd accept count c) he2 (by omega)
      simp only [process_batch, if_pos he1, if_pos hlen, hrec]
      have hwr : (List.range (fillEnd accept count c - c)).map
            (fun i => (c + i, (exec c (fillEnd accept count c)).getD i false))
          = (List.range' c (fillEnd accept count c - c)).map (fun j => (j, res j)) := by
        rw [hx]
        exact map_pair_range' res c (fillEnd accept count c - c)
      rw [hwr, ← List.map_append]
      have happ : List.range' c (fillEnd accept count c - c)
            ++ List.range' (fillEnd accept count c) (count - fillEnd accept count c)
          = List.range' c (count - c) := by
        have hb := List.range'_append c (fillEnd accept count c - c)
          (count - fillEnd accept count c) 1
        rw [show c + 1 * (fillEnd accept count c - c) = fillEnd accept count c by omega] at hb
        rw [hb]
        congr 1
        omega
      rw [happ]
    · have hceq : c = count := by omega
      have hfe : fillEnd accept count c = c := by
        unfold fillEnd
        rw [fillLoop_exhausted accept count count c [] (by omega)]
      simp only [process_batch, hfe, Nat.lt_irrefl, if_false]
      rw [show count - c = 0 by omega]
      rfl

/-- The single scan of `window_consensus_status_` that selects fallback work
(cudapolisher.cpp:289-290): every index whose status is still `false`. -/
def failed_windows (st : List Bool) : List Nat :=
  (List.range st.length).filter (fun i => !(st.getD i false))

/-- One fallback task (cudapolisher.cpp:292-301): the pool worker resolves its
per-thread alignment engine through `thread_to_id_`; a missing entry prints a
diagnostic and calls `exit(1)`, modelled as `none`; otherwise the task returns
`windows_[j]->generate_consensus(alignment_engines_[it->second])`, modelled by
`gen tid j`. -/
def fallback_task (ctx : Option Nat) (gen : Nat → Nat → Bool) (j : Nat) : Option Bool :=
  match ctx with
  | none => none
  | some tid => some (gen tid j)

/-- The fallback phase (cudapolisher.cpp:287-307): submit one task per failed
index and wait for all of them; each task writes its definite boolean result
back to the same index.  `ctxOf j` is the `thread_to_id_` lookup seen by the
worker executing index `j`'s task; any failed lookup terminates the whole
process (`exit(1)`), modelled as `Except.error`. -/
def fallback_phase (ctxOf : Nat → Option Nat) (gen : Nat → Nat → Bool)
    (st : List Bool) : Except String (List Bool) :=
  if (failed_windows st).all (fun j => (fallback_task (ctxOf j) gen j).isSome) then
    Except.ok ((failed_windows st).foldl
      (fun s j => s.set j ((fallback_task (ctxOf j) gen j).getD false)) st)
  else Except.error "thread identifier not present!"

/-- Every write performed on `window_consensus_status_` over one `polish` run
(single-Runner linearisation): the accelerator-phase writes of
`process_batch` followed by the fallback writes — one per index still false
after the accelerator phase, provided its worker context resolves.  The
vector itself starts as `windows_.size()` copies of `false`
(cudapolisher.cpp:190). -/
def statusWrites (accept : Accept) (exec : Nat → Nat → List Bool)
    (ctxOf : Nat → Option Nat) (gen : Nat → Nat → Bool) (count : Nat) :
    List (Nat × Bool) :=
  (process_batch accept exec count (count + 1) 0).1
    ++ (failed_windows (applyWrites (List.replicate count false)
          (process_batch accept exec count (count + 1) 0).1)).filterMap
        (fun j => (fallback_task (ctxOf j) gen j).map (fun b => (j, b)))

theorem getD_replicate_false : ∀ (n j : Nat), (List.replicate n false).getD j false = false := by
  intro n
  induction n with
  | zero => intro j; rfl
  | succ n ih =>
    intro j
    match j with
    | 0 => rfl
    | j + 1 => exact ih j

theorem count_range' (c k j : Nat) :
    (List.range' c k).count j = if c ≤ j ∧ j < c + k then 1 else 0 := by
  by_cases hj : c ≤ j ∧ j < c + k
  · rw [if_pos hj]
    exact List.count_eq_one_of_mem (List.nodup_range' c _)
      (List.mem_range'_1.mpr (by omega))
  · rw [if_neg hj]
    refine List.count_eq_zero_of_not_mem fun hm => ?_
    rw [List.mem_range'_1] at hm
    omega

theorem count_filter_range (p : Nat → Bool) (n j : Nat) :
    ((List.range n).filter p).count j = if j < n ∧ p j = true then 1 else 0 := by
  by_cases hj : j < n ∧ p j = true
  · rw [if_pos hj]
    exact List.count_eq_one_of_mem ((List.nodup_range n).filter p)
      (List.mem_filter.mpr ⟨List.mem_range.mpr hj.1, hj.2⟩)
  · rw [if_neg hj]
    refine List.count_eq_zero_of_not_mem fun hm => ?_
    rw [List.mem_filter, List.mem_range] at hm
    exact hj hm

theorem filterMap_all_some {α β : Type} (f : α → Option β) (g : α → β) :
    ∀ l : List α, (∀ a ∈ l, f a = some (g a)) → l.filterMap f = l.map g := by
  intro l
  induction l with
  | nil => intro _; rfl
  | cons x xs ih =>
    intro h
    rw [List.filterMap_cons, h x (List.mem_cons_self x xs), List.map_cons,
      ih (fun a ha => h a (List.mem_cons_of_mem x ha))]

theorem foldl_set_length (f : Nat → Bool) :
    ∀ (l : List Nat) (st : List Bool),
      (l.foldl (fun s i => s.set i (f i)) st).length = st.length := by
  intro l
  induction l with
  | nil => intro st; rfl
  | cons x xs ih =>
    intro st
    rw [List.foldl_cons, ih, List.length_set]

theorem foldl_set_getD (f : Nat → Bool) :
    ∀ (l : List Nat) (st : List Bool) (j : Nat), l.Nodup → (∀ i ∈ l, i < st.length) →
      (l.foldl (fun s i => s.set i (f i)) st).getD j false
        = if j ∈ l then f j else st.getD j false := by
  intro l
  induction l with
  | nil =>
    intro st j _ _
    rw [if_neg (by simp)]
    rfl
  | cons x xs ih =>
    intro st j hnd hlen
    have hx : x ∉ xs := (List.nodup_cons.mp hnd).1
    rw [List.foldl_cons, ih (st.set x (f x)) j (List.nodup_cons.mp hnd).2
      (fun i hi => by rw [List.length_set]; exact hlen i (List.mem_cons_of_mem x hi))]
    by_cases hj1 : j ∈ xs
    · rw [if_pos hj1, if_pos (List.mem_cons_of_mem x hj1)]
    · rw [if_neg hj1]
      by_cases hj2 : x = j
      · subst hj2
        rw [getD_set_self st x (f x) (hlen x (List.mem_cons_self x xs)),
          if_pos (List.mem_cons_self x xs)]
      · rw [getD_set_ne st x j (f x) hj2,
          if_neg (by rw [List.mem_cons]; rintro (rfl | h); exacts [hj2 rfl, hj1 h])]

/-- C2 as stated fails on the code: with a single window whose accelerator
batch result is `false` and whose fallback recompute succeeds, index 0 of the
status vector is mutated twice — once by the accelerator result write
(cudapolisher.cpp:262), once by the fallback write (cudapolisher.cpp:299) —
not exactly once. -/
theorem status_write_count_two :
    ¬ ((statusWrites (fun _ _ => true) (fun s e => List.replicate (e - s) false)
        (fun _ => some 0) (fun _ _ => true) 1).countP (fun w => w.1 == 0) = 1) := by
  decide

/-- C2 amended: the window consensus-status vector is sized to the full window
collection and initialized to `false`; across a complete run every index is
written exactly once by the accelerator phase (as
`status[range.start + i] = results[i]`), and exactly one additional fallback
write occurs for precisely the indices whose accelerator result was `false` —
so each index's final value is produced by exactly one of the two paths: the
accelerator batch if it succeeded, the fallback otherwise. -/
theorem status_writes_once_per_path (count : Nat) (accept : Accept)
    (exec : Nat → Nat → List Bool) (ctxOf : Nat → Option Nat)
    (gen : Nat → Nat → Bool) (res : Nat → Bool)
    (hcap : ∀ i, accept 0 i = true)
    (hres : ∀ s e, s ≤ e → exec s e = (List.range' s (e - s)).map res)
    (hctx : ∀ j, (ctxOf j).isSome) :
    (List.replicate count false).length = count ∧
    (∀ j, (List.replicate count false).getD j false = false) ∧
    (∀ j, j < count →
      (statusWrites accept exec ctxOf gen count).countP (fun w => w.1 == j)
        = if res j then 1 else 2) := by
  refine ⟨List.length_replicate count false, fun j => getD_replicate_false count j, ?_⟩
  intro j hj
  have hpb := process_batch_complete accept exec res count hcap hres (count + 1) 0
    (Nat.zero_le count) (by omega)
  have hws : (process_batch accept exec count (count + 1) 0).1
      = (List.range' 0 (count - 0)).map (fun i => (i, res i)) := by rw [hpb]
  have hst1 : ∀ i, (applyWrites (List.replicate count false)
      (process_batch accept exec count (count + 1) 0).1).getD i false
      = if 0 ≤ i ∧ i < 0 + (count - 0) then res i else
          (List.replicate count false).getD i false := by
    intro i
    rw [hws]
    exact applyWrites_range' res (count - 0) 0 (List.replicate count false) i
      (by rw [List.length_replicate]; omega)
  have hst1len : (applyWrites (List.replicate count false)
      (process_batch accept exec count (count + 1) 0).1).length = count := by
    rw [applyWrites_length, List.length_replicate]
  have hfail : failed_windows (applyWrites (List.replicate count false)
      (process_batch accept exec count (count + 1) 0).1)
      = (List.range count).filter (fun i => !(res i)) := by
    unfold failed_windows
    rw [hst1len]
    apply List.filter_congr
    intro i hi
    rw [List.mem_range] at hi
    rw [hst1 i, if_pos (by omega)]
  have hfb : (failed_windows (applyWrites (List.replicate count false)
        (process_batch accept exec count (count + 1) 0).1)).filterMap
        (fun i => (fallback_task (ctxOf i) gen i).map (fun b => (i, b)))
      = ((List.range count).filter (fun i => !(res i))).map
        (fun i => (i, (fallback_task (ctxOf i) gen i).getD false)) := by
    rw [hfail]
    apply filterMap_all_some
    intro i _
    obtain ⟨tid, htid⟩ := Option.isSome_iff_exists.mp (hctx i)
    rw [htid]
    rfl
  rw [hws] at hfb
  unfold statusWrites
  rw [List.countP_append, hws, hfb, List.countP_map, List.countP_map]
  have h1 : List.countP ((fun w => w.1 == j) ∘ fun i => (i, res i))
      (List.range' 0 (count - 0)) = 1 := by
    have : ((fun (w : Nat × Bool) => w.1 == j) ∘ fun i => (i, res i))
        = fun i => i == j := rfl
    rw [this, ← List.count]
    rw [count_range' 0 (count - 0) j, if_pos (by omega)]
  have h2 : List.countP ((fun w => w.1 == j) ∘
        fun i => (i, (fallback_task (ctxOf i) gen i).getD false))
      ((List.range count).filter (fun i => !(res i)))
      = if res j then 0 else 1 := by
    have hcomp : ((fun (w : Nat × Bool) => w.1 == j) ∘
        fun i => (i, (fallback_task (ctxOf i) gen i).getD false)) = fun i => i == j := rfl
    rw [hcomp, ← List.count, count_filter_range (fun i => !(res i)) count j]
    by_cases hr : res j
    · rw [if_pos hr, if_neg (by simp [hr])]
    · rw [if_neg hr, if_pos ⟨hj, by simp [eq_false_of_ne_true hr]⟩]
  rw [h1, h2]
  by_cases hr : res j
  · rw [if_pos hr, if_pos hr]
  · rw [if_neg hr, if_neg hr]

theorem status_writes_once_per_path_witness :
    (statusWrites (fun _ _ => true) (fun s e => (List.range' s (e - s)).map (fun _ => false))
      (fun _ => some 0) (fun _ _ => true) 1).countP (fun w => w.1 == 0) = 2 := by
  have h := (status_writes_once_per_path 1 (fun _ _ => true)
    (fun s e => (List.range' s (e - s)).map (fun _ => false))
    (fun _ => some 0) (fun _ _ => true) (fun _ => false)
    (fun _ => rfl) (fun _ _ _ => rfl) (fun _ => rfl)).2.2 0 (by decide)
  simpa using h

/-- C5: after the accelerator Runners finish, the scheduler scans the status
vector once — the fallback work list holds exactly the indices still `false`;
when every submitted task's pool worker has an associated context, the phase
completes and writes a definite boolean (the single-window recompute result)
back to exactly those indices, leaving succeeded indices untouched; and a
task executing on a worker with no associated context is fatal: the phase
terminates the process (`exit(1)`), modelled as an error. -/
theorem fallback_phase_spec (ctxOf : Nat → Option Nat) (gen : Nat → Nat → Bool)
    (st : List Bool) :
    (∀ j, j ∈ failed_windows st ↔ j < st.length ∧ st.getD j false = false) ∧
    ((∀ j ∈ failed_windows st, (ctxOf j).isSome) →
      ∃ st2, fallback_phase ctxOf gen st = Except.ok st2 ∧ st2.length = st.length ∧
        (∀ j, j < st.length → st.getD j false = false →
          st2.getD j false = gen ((ctxOf j).getD 0) j) ∧
        (∀ j, st.getD j false = true → st2.getD j false = true)) ∧
    ((∃ j ∈ failed_windows st, ctxOf j = none) →
      ∃ e, fallback_phase ctxOf gen st = Except.error e) := by
  have hmem : ∀ j, j ∈ failed_windows st ↔ j < st.length ∧ st.getD j false = false := by
    intro j
    unfold failed_windows
    rw [List.mem_filter, List.mem_range]
    simp
  refine ⟨hmem, ?_, ?_⟩
  · intro hall
    have hcond : (failed_windows st).all
        (fun j => (fallback_task (ctxOf j) gen j).isSome) = true := by
      rw [List.all_eq_true]
      intro j hjm
      obtain ⟨tid, htid⟩ := Option.isSome_iff_exists.mp (hall j hjm)
      rw [htid]
      rfl
    refine ⟨(failed_windows st).foldl
      (fun s j => s.set j ((fallback_task (ctxOf j) gen j).getD false)) st, ?_, ?_, ?_, ?_⟩
    · unfold fallback_phase
      rw [if_pos hcond]
    · exact foldl_set_length _ (failed_windows st) st
    · intro j hjlen hjfalse
      have hjmem : j ∈ failed_windows st := (hmem j).mpr ⟨hjlen, hjfalse⟩
      have hnd : (failed_windows st).Nodup := (List.nodup_range st.length).filter _
      have hbnd : ∀ i ∈ failed_windows st, i < st.length := fun i hi => ((hmem i).mp hi).1
      rw [foldl_set_getD _ (failed_windows st) st j hnd hbnd, if_pos hjmem]
      obtain ⟨tid, htid⟩ := Option.isSome_iff_exists.mp (hall j hjmem)
      rw [htid]
      rfl
    · intro j hjtrue
      have hjnot : j ∉ failed_windows st := by
        intro hmem2
        have := ((hmem j).mp hmem2).2
        rw [hjtrue] at this
        exact Bool.true_eq_false.mp this
      have hnd : (failed_windows st).Nodup := (List.nodup_range st.length).filter _
      have hbnd : ∀ i ∈ failed_windows st, i < st.length := fun i hi => ((hmem i).mp hi).1
      rw [foldl_set_getD _ (failed_windows st) st j hnd hbnd, if_neg hjnot]
      exact hjtrue
  · rintro ⟨j, hjmem, hjnone⟩
    have hfalse : ¬ ((failed_windows st).all
        (fun j => (fallback_task (ctxOf j) gen j).isSome) = true) := by
      intro hall
      have h2 := List.all_eq_true.mp hall j hjmem
      rw [hjnone] at h2
      simp [fallback_task] at h2
    refine ⟨"thread identifier not present!", ?_⟩
    unfold fallback_phase
    rw [if_neg hfalse]

theorem fallback_phase_spec_witness :
    (∃ st2, fallback_phase (fun _ => some 4) (fun _ _ => true) [false, true]
        = Except.ok st2 ∧ st2.getD 0 false = true) ∧
    (∃ e, fallback_phase (fun _ => none) (fun _ _ => true) [false] = Except.error e) := by
  constructor
  · obtain ⟨st2, hok, _, hval, _⟩ :=
      (fallback_phase_spec (fun _ => some 4) (fun _ _ => true) [false, true]).2.1 (by decide)
    exact ⟨st2, hok, hval 0 (by decide) (by decide)⟩
  · exact (fallback_phase_spec (fun _ => none) (fun _ _ => true) [false]).2.2
      ⟨0, by decide, rfl⟩

/-- A consensus window as the Output Assembler sees it: its `rank()`
(position within its source sequence's window run), its `consensus()` text,
and its `id()` (the source-sequence identifier). -/
structure Window where
  rank : Nat
  cons : List Char
  wid : Nat
deriving DecidableEq

/-- One output record of `polish` (cudapolisher.cpp:329-334): the emitted
sequence's identity, its concatenated consensus data, and the three numeric
tags (output length `LN`, source coverage `RC`, polished ratio `XC`).  The
tag-string syntax is a formatting detail and is not modelled; the polished
ratio is kept as an exact rational — the C++ `double` division by
`rank + 1 ≤ 2^32` preserves the sign exactly, which is all the emission
decision reads. -/
structure Record where
  wid : Nat
  data : List Char
  len : Nat
  cov : Nat
  polished_ratio : ℚ
deriving DecidableEq

/-- The group-boundary test
`i == windows_.size() - 1 || windows_[i + 1]->rank() == 0`
(cudapolisher.cpp:324), phrased on the list of windows still to visit. -/
def closesGroup (rest : List (Window × Bool)) : Bool :=
  match rest with
  | [] => true
  | (w2, _) :: _ => w2.rank == 0

/-- The output-assembly loop of `CUDAPolisher::polish`
(cudapolisher.cpp:315-341): one linear pass over the windows paired with
their final consensus status, accumulating `polished_data` and
`num_polished_windows`; when the next window's rank is 0 or the current
window is the last, compute
`polished_ratio = num_polished_windows / (rank + 1)`, emit one record unless
dropping of unpolished sequences was requested and the ratio is not positive
(`!drop_unpolished_sequences || polished_ratio > 0`), then reset both
accumulators and continue. -/
def collect_results (drop : Bool) (cov : Nat → Nat) :
    List (Window × Bool) → Nat → List Char → List Record
  | [], _, _ => []
  | (w, st) :: rest, np, data =>
    if closesGroup rest then
      (if drop = false ∨ 0 < ((np + (if st then 1 else 0) : Nat) : ℚ) / ((w.rank : ℚ) + 1) then
        [{ wid := w.wid, data := data ++ w.cons, len := (data ++ w.cons).length,
           cov := cov w.wid,
           polished_ratio := ((np + (if st then 1 else 0) : Nat) : ℚ) / ((w.rank : ℚ) + 1) }]
      else [])
      ++ collect_results drop cov rest 0 []
    else collect_results drop cov rest (np + (if st then 1 else 0)) (data ++ w.cons)

/-- C8: the Output Assembler makes a single pass in original order and emits
exactly one record per source sequence, closing a sequence exactly when the
next window's rank is 0 or the current window is the last: for the window
ranks `[0, 1, 2, 0, 1]` it emits exactly 2 records, the first holding the
first three windows' concatenated text, the second starting fresh after the
rank-0 boundary with the last two windows' text — for any consensus texts,
statuses, identifiers and coverages. -/
theorem output_grouping (c1 c2 c3 c4 c5 : List Char) (s1 s2 s3 s4 s5 : Bool)
    (i1 i2 i3 i4 i5 : Nat) (cov : Nat → Nat) :
    (collect_results false cov
        [(⟨0, c1, i1⟩, s1), (⟨1, c2, i2⟩, s2), (⟨2, c3, i3⟩, s3),
         (⟨0, c4, i4⟩, s4), (⟨1, c5, i5⟩, s5)] 0 []).map Record.data
      = [c1 ++ (c2 ++ c3), c4 ++ c5] := by
  simp [collect_results, closesGroup]

theorem collect_single_group (drop : Bool) (cov : Nat → Nat) :
    ∀ (ws : List (Window × Bool)) (np : Nat) (data : List Char) (hne : ws ≠ []),
      (∀ p ∈ ws.tail, (p.1).rank ≠ 0) →
      ∃ rec : Record,
        rec.polished_ratio
          = ((np + ws.countP (fun p => p.2) : Nat) : ℚ)
            / (((ws.getLast hne).1.rank : ℚ) + 1) ∧
        rec.data = data ++ (ws.map (fun p => (p.1).cons)).flatten ∧
        collect_results drop cov ws np data
          = if drop = false ∨ 0 < rec.polished_ratio then [rec] else [] := by
  intro ws
  induction ws with
  | nil => intro np data hne _; exact absurd rfl hne
  | cons p rest ih =>
    intro np data hne hint
    obtain ⟨w, st⟩ := p
    cases rest with
    | nil =>
      refine ⟨⟨w.wid, data ++ w.cons, (data ++ w.cons).length, cov w.wid,
        ((np + (if st then 1 else 0) : Nat) : ℚ) / ((w.rank : ℚ) + 1)⟩, ?_, ?_, ?_⟩
      · simp [List.countP_cons]
      · simp
      · simp only [collect_results, closesGroup, List.append_nil]
        rw [if_pos trivial]
    | cons q rest2 =>
      have hq : (q.1).rank ≠ 0 := hint q (List.mem_cons_self q rest2)
      have hclose : closesGroup (q :: rest2) = false := by
        obtain ⟨w2, s2⟩ := q
        have hq2 : w2.rank ≠ 0 := hq
        simp [closesGroup, hq2]
      have hint2 : ∀ p ∈ (q :: rest2).tail, (p.1).rank ≠ 0 := fun p hp =>
        hint p (List.mem_cons_of_mem q hp)
      obtain ⟨rec, hr1, hrd, hr2⟩ := ih (np + (if st then 1 else 0)) (data ++ w.cons)
        (List.cons_ne_nil q rest2) hint2
      refine ⟨rec, ?_, ?_, ?_⟩
      · rw [hr1]
        have hcnt : np + (if st then 1 else 0) + (q :: rest2).countP (fun p => p.2)
            = np + ((w, st) :: q :: rest2).countP (fun p => p.2) := by
          simp only [List.countP_cons]
          omega
        rw [hcnt]
        have hlast : ((q :: rest2).getLast (List.cons_ne_nil q rest2))
            = (((w, st) :: q :: rest2).getLast hne) :=
          (List.getLast_cons (List.cons_ne_nil q rest2)).symm
        rw [hlast]
      · rw [hrd]
        simp [List.append_assoc]
      · have hstep : collect_results drop cov ((w, st) :: q :: rest2) np data
            = collect_results drop cov (q :: rest2) (np + (if st then 1 else 0))
              (data ++ w.cons) := by
          simp only [collect_results, hclose]
          rw [if_neg Bool.false_ne_true]
        rw [hstep, hr2]

/-- C9: for each source sequence the Output Assembler computes
`polished_ratio` as the number of its windows whose consensus succeeded
divided by the rank of the sequence's last window plus 1 — 3 windows with 2
successes give `2/3` — and when dropping of unpolished sequences was
requested and the ratio is non-positive, no record is emitted for that
sequence.  (`hint` states `ws` is one sequence's windows: only the first may
have rank 0.) -/
theorem polished_ratio_spec (drop : Bool) (cov : Nat → Nat)
    (ws : List (Window × Bool)) (hne : ws ≠ [])
    (hint : ∀ p ∈ ws.tail, (p.1).rank ≠ 0) :
    (collect_results drop cov ws 0 []).map Record.polished_ratio
      = if drop = true ∧ ws.countP (fun p => p.2) = 0 then []
        else [((ws.countP (fun p => p.2) : Nat) : ℚ)
          / (((ws.getLast hne).1.rank : ℚ) + 1)] := by
  obtain ⟨rec, hr1, _, hr2⟩ := collect_single_group drop cov ws 0 [] hne hint
  rw [hr2]
  have hb : (0 : ℚ) < (((ws.getLast hne).1.rank : ℚ) + 1) := by positivity
  have hpos : (0 < rec.polished_ratio) ↔ 0 < ws.countP (fun p => p.2) := by
    rw [hr1, div_pos_iff]
    constructor
    · rintro (⟨ha, _⟩ | ⟨_, hb2⟩)
      · have h2 : 0 < 0 + ws.countP (fun p => p.2) := by exact_mod_cast ha
        omega
      · exact absurd hb2 (not_lt.mpr hb.le)
    · intro h
      refine Or.inl ⟨?_, hb⟩
      have h2 : 0 < 0 + ws.countP (fun p => p.2) := by omega
      exact_mod_cast h2
  by_cases hd : drop = true ∧ ws.countP (fun p => p.2) = 0
  · rw [if_pos hd, if_neg ?_, List.map_nil]
    rintro (h1 | h2)
    · rw [hd.1] at h1
      exact Bool.true_eq_false.mp h1
    · rw [hpos] at h2
      omega
  · have hcond : drop = false ∨ 0 < rec.polished_ratio := by
      by_cases hdrop : drop = false
      · exact Or.inl hdrop
      · refine Or.inr (hpos.mpr ?_)
        have hdt : drop = true := by
          cases drop
          · exact absurd rfl hdrop
          · rfl
        have hn0 : ws.countP (fun p => p.2) ≠ 0 := fun h0 => hd ⟨hdt, h0⟩
        omega
    rw [if_pos hcond, if_neg hd, List.map_cons, List.map_nil, hr1]
    norm_num

theorem polished_ratio_spec_witness :
    (collect_results false (fun _ => 0)
        [(⟨0, ['a'], 0⟩, true), (⟨1, ['b'], 0⟩, true), (⟨2, ['c'], 0⟩, false)]
        0 []).map Record.polished_ratio = [(2 : ℚ) / 3] := by
  have h := polished_ratio_spec false (fun _ => 0)
    [(⟨0, ['a'], 0⟩, true), (⟨1, ['b'], 0⟩, true), (⟨2, ['c'], 0⟩, false)]
    (by decide) (by decide)
  rw [if_neg (by simp)] at h
  rw [h]
  norm_num [List.countP_cons, List.countP_nil, List.getLast]

theorem collect_data_indep (cov : Nat → Nat) :
    ∀ (l1 l2 : List (Window × Bool)) (np1 np2 : Nat) (data : List Char),
      l1.map Prod.fst = l2.map Prod.fst →
      (collect_results false cov l1 np1 data).map Record.data
        = (collect_results false cov l2 np2 data).map Record.data := by
  intro l1
  induction l1 with
  | nil =>
    intro l2 np1 np2 data h
    have h3 : l2 = [] := List.map_eq_nil_iff.mp h.symm
    subst h3
    rfl
  | cons p rest ih =>
    intro l2 np1 np2 data h
    obtain ⟨w, st⟩ := p
    cases l2 with
    | nil => simp at h
    | cons q rest2 =>
      obtain ⟨w2, st2⟩ := q
      simp only [List.map_cons, List.cons.injEq] at h
      obtain ⟨hw, hrest⟩ := h
      subst hw
      have hclose : closesGroup rest = closesGroup rest2 := by
        cases rest with
        | nil =>
          cases rest2 with
          | nil => rfl
          | cons r t => simp at hrest
        | cons r t =>
          cases rest2 with
          | nil => simp at hrest
          | cons r2 t2 =>
            obtain ⟨wr, sr⟩ := r
            obtain ⟨wr2, sr2⟩ := r2
            simp only [List.map_cons, List.cons.injEq] at hrest
            have hwr : wr = wr2 := hrest.1
            simp [closesGroup, hwr]
      simp only [collect_results]
      by_cases hc : closesGroup rest2 = true
      · rw [hclose, hc, if_pos rfl, if_pos rfl, if_pos (Or.inl trivial),
          if_pos (Or.inl trivial), List.map_append, List.map_append,
          ih rest2 0 0 [] hrest]
        rfl
      · rw [hclose, eq_false_of_ne_true hc, if_neg Bool.false_ne_true,
          if_neg Bool.false_ne_true]
        exact ih rest2 (np1 + (if st then 1 else 0)) (np2 + (if st2 then 1 else 0))
          (data ++ w.cons) hrest

/-- C10: in the output pass, every window's consensus text is appended to its
source sequence's accumulated polished data unconditionally — the per-window
success flag influences only the polished-window count (hence the ratio and
the drop decision), never whether the window's text is included: with
dropping disabled, runs over the same windows under any two status
assignments emit records with identical data. -/
theorem consensus_text_independent_of_status (cov : Nat → Nat)
    (l1 l2 : List (Window × Bool)) (h : l1.map Prod.fst = l2.map Prod.fst) :
    (collect_results false cov l1 0 []).map Record.data
      = (collect_results false cov l2 0 []).map Record.data :=
  collect_data_indep cov l1 l2 0 0 [] h

theorem consensus_text_independent_of_status_witness :
    (collect_results false (fun _ => 0)
        [(⟨0, ['a'], 0⟩, true), (⟨1, ['b'], 0⟩, true)] 0 []).map Record.data
      = (collect_results false (fun _ => 0)
        [(⟨0, ['a'], 0⟩, false), (⟨1, ['b'], 0⟩, false)] 0 []).map Record.data :=
  consensus_text_independent_of_status (fun _ => 0)
    [(⟨0, ['a'], 0⟩, true), (⟨1, ['b'], 0⟩, true)]
    [(⟨0, ['a'], 0⟩, false), (⟨1, ['b'], 0⟩, false)] (by decide)

/-- `CUDAPolisher::polish` (cudapolisher.cpp:156-345) end to end, in the
single-Runner linearisation: run the accelerator phase, apply its status
writes to the all-false vector, run the fallback phase (whose `exit(1)` on a
missing worker context aborts the process, hence `Except.error`), then
assemble the output records.  A Runner's integrity exception is stored in its
`std::future`, and the driver loop (cudapolisher.cpp:282-285) only calls
`future.wait()`, which per the C++ standard does not rethrow a stored
exception (only `get()` does); the error is therefore carried alongside the
emitted output instead of aborting the run. -/
def polish (accept : Accept) (exec : Nat → Nat → List Bool)
    (ctxOf : Nat → Option Nat) (gen : Nat → Nat → Bool)
    (wins : List Window) (cov : Nat → Nat) (drop : Bool) :
    Except String (List Record × Option String) :=
  match fallback_phase ctxOf gen
      (applyWrites (List.replicate wins.length false)
        (process_batch accept exec wins.length (wins.length + 1) 0).1) with
  | Except.error e => Except.error e
  | Except.ok st2 =>
      Except.ok (collect_results drop cov (wins.zip st2) 0 [],
        (process_batch accept exec wins.length (wins.length + 1) 0).2)

/-- C3 fails on the code, although the spec matches the code's evident intent
(the thrown `std::runtime_error`): the throw happens inside a `std::async`
task and the driver only ever calls `future.wait()`, never `get()`, so the
stored exception is discarded and the run continues.  Concretely: one window,
a stubbed batch returning an empty results vector for its size-1 range — the
mismatch is detected (the error string below is produced), yet the window is
rescued by the fallback and one output record is still emitted. -/
theorem mismatch_error_does_not_abort_run :
    ∃ rec : Record,
      polish (fun _ _ => true) (fun _ _ => []) (fun _ => some 0) (fun _ _ => true)
          [⟨0, ['a'], 0⟩] (fun _ => 7) false
        = Except.ok ([rec],
            some "Windows processed doesn't match range of windows passed to batch")
      ∧ rec.data = ['a'] ∧ 0 < rec.polished_ratio :=
  ⟨_, rfl, rfl, by norm_num [fallback_task, Option.getD]⟩

end Racon
